import Mathlib

/-!
Verification of the sqmap coordinate-transform and periodicity-stitching core.

The definitions below are a shallow embedding of the Python sources:
  - `src/sqmap/visualisation/transformers.py`
  - `src/sqmap/visualisation/flatmap.py` (the function `account_for_periodicity`)
  - `src/sqmap/backends.py` (the `QubitPlacement` dataclass)
Floating-point numbers are modelled as real numbers, numpy 1-D arrays as
`List ℝ`, 2x2 complex numpy arrays as `Matrix (Fin 2) (Fin 2) ℂ`, and a
Python function whose body can raise (an `assert` or an explicit `raise`)
as an `Option`-returning function that yields `none` exactly on the raising
branch.
-/

namespace Sqmap

open Real

/-- Models `numpy.linalg.norm([x, y, z])`: the Euclidean norm of a 3-vector. -/
noncomputable def norm3 (x y z : ℝ) : ℝ := Real.sqrt (x ^ 2 + y ^ 2 + z ^ 2)

/-- Models `numpy.arctan2(y, x)`: the angle of the point `(x, y)`, in `(-π, π]`,
realised as the argument of the complex number `x + y*i`. -/
noncomputable def arctan2 (y x : ℝ) : ℝ := Complex.arg ⟨x, y⟩

/-- Models `sqt._constants.I`: the 2x2 identity matrix. -/
def pauliI : Matrix (Fin 2) (Fin 2) ℂ := 1

/-- Models `sqt._constants.X`: the Pauli X matrix. -/
def pauliX : Matrix (Fin 2) (Fin 2) ℂ := !![0, 1; 1, 0]

/-- Models `sqt._constants.Y`: the Pauli Y matrix. -/
def pauliY : Matrix (Fin 2) (Fin 2) ℂ := !![0, -Complex.I; Complex.I, 0]

/-- Models `sqt._constants.Z`: the Pauli Z matrix. -/
def pauliZ : Matrix (Fin 2) (Fin 2) ℂ := !![1, 0; 0, -1]

/-- `transformers.bloch_vector_to_density_matrix`:
`(I + s[0]*X + s[1]*Y + s[2]*Z) / 2` (entrywise division by the scalar 2). -/
noncomputable def bloch_vector_to_density_matrix (x y z : ℝ) :
    Matrix (Fin 2) (Fin 2) ℂ :=
  ((2 : ℂ)⁻¹) • (pauliI + (x : ℂ) • pauliX + (y : ℂ) • pauliY + (z : ℂ) • pauliZ)

/-- `transformers.density2bloch`: with `[[a, b], [c, d]] = ρ` (row-major),
returns `(Re (c + b), Im (c - b), Re (a - d))`. -/
noncomputable def density2bloch (ρ : Matrix (Fin 2) (Fin 2) ℂ) : ℝ × ℝ × ℝ :=
  ((ρ 1 0 + ρ 0 1).re, (ρ 1 0 - ρ 0 1).im, (ρ 0 0 - ρ 1 1).re)

/-- `transformers.cartesian2spherical`:
`r = norm([x,y,z])`, `theta = arccos (z / r)`, `phi = arctan2 y x`.
The division `z / r` is taken unguarded, exactly as in the source. -/
noncomputable def cartesian2spherical (x y z : ℝ) : ℝ × ℝ × ℝ :=
  (norm3 x y z, Real.arccos (z / norm3 x y z), arctan2 y x)

/-- `transformers.spherical2cartesian`. -/
noncomputable def spherical2cartesian (r theta phi : ℝ) : ℝ × ℝ × ℝ :=
  (r * Real.cos phi * Real.sin theta,
   r * Real.sin phi * Real.sin theta,
   r * Real.cos theta)

open Classical in
/-- `transformers.cartesian2density`: asserts `abs (norm [x,y,z]) < 1 + 1e-10`
(returning `none` models the `AssertionError` branch) and otherwise returns
`bloch_vector_to_density_matrix [x, y, z]`. -/
noncomputable def cartesian2density (x y z : ℝ) :
    Option (Matrix (Fin 2) (Fin 2) ℂ) :=
  if |norm3 x y z| < 1 + 1e-10 then some (bloch_vector_to_density_matrix x y z)
  else none

open Classical in
/-- `transformers.spherical2geographic`, elementwise on arrays:
`lat = 90 - theta * 360 / (2π)`, `lon = phi * 360 / (2π)`, then the in-place
masked update `lon[lon > 180] -= 360` is modelled as a second map. -/
noncomputable def spherical2geographic (theta phi : List ℝ) : List ℝ × List ℝ :=
  (theta.map (fun t => 90 - t * 360 / (2 * Real.pi)),
   (phi.map (fun p => p * 360 / (2 * Real.pi))).map
     (fun l => if l > 180 then l - 360 else l))

open Classical in
/-- Models `numpy.isclose(a, b)` with the default tolerances
`rtol = 1e-05`, `atol = 1e-08`: `|a - b| ≤ atol + rtol * |b|`. -/
noncomputable def isclose (a b : ℝ) : Bool := decide (|a - b| ≤ 1e-8 + 1e-5 * |b|)

/-- Models `numpy.nonzero` on a 1-D boolean mask: the (increasing) list of
indices at which the mask is true. -/
def nonzero (mask : List Bool) : List ℕ :=
  (List.range mask.length).filter (fun i => mask.getD i false)

/-- Models numpy integer-array ("fancy") indexing `A[idx]` for in-range
index lists. -/
def select (A : List ℝ) (idx : List ℕ) : List ℝ := idx.map (fun i => A.getD i 0)

/-- `flatmap.account_for_periodicity`: duplicates the samples whose second
coordinate `Y` is numpy-close to `-π` (shifting that coordinate by `+2π`) and
those close to `+π` (shifting by `-2π`), appending the duplicates after the
original samples; `X` and `Z` entries are copied unchanged at the same
indices. The function takes exactly three arrays and the seam constant `π`
is hard-coded. -/
noncomputable def account_for_periodicity (X Y Z : List ℝ) :
    List ℝ × List ℝ × List ℝ :=
  let indices_minus_pi := nonzero (Y.map (fun v => isclose v (-Real.pi)))
  let indices_plus_pi := nonzero (Y.map (fun v => isclose v Real.pi))
  (X ++ select X indices_minus_pi ++ select X indices_plus_pi,
   Y ++ (select Y indices_minus_pi).map (fun v => v + 2 * Real.pi)
     ++ (select Y indices_plus_pi).map (fun v => v - 2 * Real.pi),
   Z ++ select Z indices_minus_pi ++ select Z indices_plus_pi)

/-- Modelled from the spec: the §4.2 PeriodicityStitcher contract
`stitch(period, longitude_values, latitude_values, *payload_arrays)`
(specialised to a single payload array), which is what the spec says
`account_for_periodicity` implements.  Samples whose longitude is within
floating-point closeness tolerance of `-period/2` are duplicated with the
longitude shifted by `+period`, then those within tolerance of `+period/2`
duplicated with the longitude shifted by `-period`; latitude and payload
entries are copied unchanged at the same indices. -/
noncomputable def stitch (period : ℝ) (lon lat payload : List ℝ) :
    List ℝ × List ℝ × List ℝ :=
  let sMinus := nonzero (lon.map (fun v => isclose v (-(period / 2))))
  let sPlus := nonzero (lon.map (fun v => isclose v (period / 2)))
  (lon ++ (select lon sMinus).map (fun v => v + period)
       ++ (select lon sPlus).map (fun v => v - period),
   lat ++ select lat sMinus ++ select lat sPlus,
   payload ++ select payload sMinus ++ select payload sPlus)

/-- `backends.QubitPlacement` (the dataclass fields). -/
structure QubitPlacement where
  qubit_number : ℕ
  positions : List (ℤ × ℤ)
  supported_processor_types : List String

/-- Construction of a `QubitPlacement`, including the `__post_init__` check:
if `qubit_number ≠ positions.length` a `RuntimeError` is raised (modelled by
`none`); otherwise the instance is produced. -/
def mkQubitPlacement (n : ℕ) (ps : List (ℤ × ℤ)) (ts : List String) :
    Option QubitPlacement :=
  if n = ps.length then some ⟨n, ps, ts⟩ else none

/-! ### Helper lemmas on `nonzero` and `select` -/

theorem nonzero_nil : nonzero [] = [] := rfl

theorem nonzero_cons (m : Bool) (ms : List Bool) :
    nonzero (m :: ms) =
      if m then 0 :: (nonzero ms).map Nat.succ else (nonzero ms).map Nat.succ := by
  unfold nonzero
  rw [List.length_cons, List.range_succ_eq_map, List.filter_cons, List.filter_map]
  simp only [List.getD_cons_zero, Function.comp_def, List.getD_cons_succ]

theorem select_cons_succ (a : ℝ) (A : List ℝ) (idx : List ℕ) :
    select (a :: A) (idx.map Nat.succ) = select A idx := by
  unfold select
  rw [List.map_map]
  simp only [Function.comp_def, List.getD_cons_succ]

theorem select_nonzero_zip (f : ℝ → Bool) :
    ∀ (A B : List ℝ), A.length = B.length →
      select A (nonzero (B.map f)) =
        ((A.zip B).filter (fun q => f q.2)).map Prod.fst := by
  intro A B
  induction B generalizing A with
  | nil =>
    intro h
    rw [List.length_eq_zero.mp h]
    rfl
  | cons b B ih =>
    intro h
    cases A with
    | nil => simp at h
    | cons a A =>
      rw [List.map_cons, nonzero_cons, List.zip_cons_cons, List.filter_cons]
      simp only [List.length_cons, Nat.succ.injEq] at h
      cases hfb : f b with
      | true =>
        simp only [if_true]
        show select (a :: A) (0 :: (nonzero (B.map f)).map Nat.succ) = _
        have : select (a :: A) (0 :: (nonzero (B.map f)).map Nat.succ) =
            a :: select (a :: A) ((nonzero (B.map f)).map Nat.succ) := rfl
        rw [this, select_cons_succ, ih A h, List.map_cons]
      | false =>
        simp only [Bool.false_eq_true, if_false]
        rw [select_cons_succ, ih A h]

theorem select_nonzero_self (f : ℝ → Bool) :
    ∀ B : List ℝ, select B (nonzero (B.map f)) = B.filter f := by
  intro B
  induction B with
  | nil => rfl
  | cons b B ih =>
    rw [List.map_cons, nonzero_cons, List.filter_cons]
    cases hfb : f b with
    | true =>
      simp only [if_true]
      show select (b :: B) (0 :: (nonzero (B.map f)).map Nat.succ) = _
      have : select (b :: B) (0 :: (nonzero (B.map f)).map Nat.succ) =
          b :: select (b :: B) ((nonzero (B.map f)).map Nat.succ) := rfl
      rw [this, select_cons_succ, ih]
    | false =>
      simp only [Bool.false_eq_true, if_false]
      rw [select_cons_succ, ih]

/-! ### Evaluations of `isclose` at the constants the claims need -/

theorem isclose_neg_pi_self : isclose (-Real.pi) (-Real.pi) = true := by
  simp only [isclose, decide_eq_true_eq]
  have : |(-Real.pi) - (-Real.pi)| = 0 := by simp
  rw [this]
  positivity

theorem isclose_neg_pi_pi : isclose (-Real.pi) Real.pi = false := by
  simp only [isclose, decide_eq_false_iff_not, not_le]
  have h1 : |(-Real.pi) - Real.pi| = 2 * Real.pi := by
    rw [show (-Real.pi) - Real.pi = -(2 * Real.pi) by ring, abs_neg,
      abs_of_nonneg (by positivity)]
  have h2 : |Real.pi| = Real.pi := abs_of_nonneg Real.pi_pos.le
  rw [h1, h2]
  nlinarith [Real.pi_gt_three, Real.pi_lt_four]

theorem isclose_zero_neg_pi : isclose (0 : ℝ) (-Real.pi) = false := by
  simp only [isclose, decide_eq_false_iff_not, not_le]
  have h1 : |(0 : ℝ) - (-Real.pi)| = Real.pi := by
    rw [show (0 : ℝ) - (-Real.pi) = Real.pi by ring, abs_of_nonneg Real.pi_pos.le]
  have h2 : |(-Real.pi)| = Real.pi := by rw [abs_neg, abs_of_nonneg Real.pi_pos.le]
  rw [h1, h2]
  nlinarith [Real.pi_gt_three, Real.pi_lt_four]

theorem isclose_zero_pi : isclose (0 : ℝ) Real.pi = false := by
  simp only [isclose, decide_eq_false_iff_not, not_le]
  have h1 : |(0 : ℝ) - Real.pi| = Real.pi := by
    rw [show (0 : ℝ) - Real.pi = -Real.pi by ring, abs_neg,
      abs_of_nonneg Real.pi_pos.le]
  have h2 : |Real.pi| = Real.pi := abs_of_nonneg Real.pi_pos.le
  rw [h1, h2]
  nlinarith [Real.pi_gt_three, Real.pi_lt_four]

theorem isclose_neg180_neg_half360 : isclose (-180 : ℝ) (-((360 : ℝ) / 2)) = true := by
  simp only [isclose, decide_eq_true_eq]
  norm_num

theorem isclose_neg180_half360 : isclose (-180 : ℝ) ((360 : ℝ) / 2) = false := by
  simp only [isclose, decide_eq_false_iff_not, not_le]
  norm_num

theorem isclose_neg180_neg_pi : isclose (-180 : ℝ) (-Real.pi) = false := by
  simp only [isclose, decide_eq_false_iff_not, not_le]
  have h1 : |(-180 : ℝ) - (-Real.pi)| = 180 - Real.pi := by
    rw [show (-180 : ℝ) - (-Real.pi) = -(180 - Real.pi) by ring, abs_neg,
      abs_of_nonneg (by nlinarith [Real.pi_lt_four])]
  have h2 : |(-Real.pi)| = Real.pi := by rw [abs_neg, abs_of_nonneg Real.pi_pos.le]
  rw [h1, h2]
  nlinarith [Real.pi_gt_three, Real.pi_lt_four]

theorem isclose_neg180_pi : isclose (-180 : ℝ) Real.pi = false := by
  simp only [isclose, decide_eq_false_iff_not, not_le]
  have h1 : |(-180 : ℝ) - Real.pi| = 180 + Real.pi := by
    rw [show (-180 : ℝ) - Real.pi = -(180 + Real.pi) by ring, abs_neg,
      abs_of_nonneg (by nlinarith [Real.pi_gt_three])]
  have h2 : |Real.pi| = Real.pi := abs_of_nonneg Real.pi_pos.le
  rw [h1, h2]
  nlinarith [Real.pi_gt_three, Real.pi_lt_four]

/-! ### Claim C1 -/

/-- C1 (amended): `account_for_periodicity` takes exactly three index-aligned
arrays `(X, Y, Z)` — one payload array, not arbitrarily many — and stitches
with the seam fixed at `±π` (period `2π`), keyed on the *second* array `Y`
(the azimuth/longitude at its radian call site): the output consists of all
original samples in their original order, followed by one duplicate of every
sample whose `Y` is numpy-close to `-π` with `Y` shifted by `+2π`, followed
by one duplicate of every sample whose `Y` is numpy-close to `+π` with `Y`
shifted by `-2π`; `X` and `Z` entries of each duplicate are copied unchanged
and stay index-aligned (expressed below through the zip filters), the inputs
are not mutated (the function is pure and returns fresh lists), and a sample
close to both boundaries is duplicated once per boundary (both duplicate
blocks are appended independently). -/
theorem c1_account_for_periodicity_stitches_at_pi (X Y Z : List ℝ)
    (hx : X.length = Y.length) (hz : Z.length = Y.length) :
    account_for_periodicity X Y Z =
      (X ++ ((X.zip Y).filter (fun q => isclose q.2 (-Real.pi))).map Prod.fst
         ++ ((X.zip Y).filter (fun q => isclose q.2 Real.pi)).map Prod.fst,
       Y ++ (Y.filter (fun v => isclose v (-Real.pi))).map (fun v => v + 2 * Real.pi)
         ++ (Y.filter (fun v => isclose v Real.pi)).map (fun v => v - 2 * Real.pi),
       Z ++ ((Z.zip Y).filter (fun q => isclose q.2 (-Real.pi))).map Prod.fst
         ++ ((Z.zip Y).filter (fun q => isclose q.2 Real.pi)).map Prod.fst) := by
  simp only [account_for_periodicity]
  rw [select_nonzero_zip (fun v => isclose v (-Real.pi)) X Y hx,
    select_nonzero_zip (fun v => isclose v Real.pi) X Y hx,
    select_nonzero_zip (fun v => isclose v (-Real.pi)) Z Y hz,
    select_nonzero_zip (fun v => isclose v Real.pi) Z Y hz,
    select_nonzero_self (fun v => isclose v (-Real.pi)) Y,
    select_nonzero_self (fun v => isclose v Real.pi) Y]

/-- C1 witness: the characterisation applied at the concrete input
`X = [1]`, `Y = [-π]`, `Z = [5]`. -/
theorem c1_witness :
    ([(1 : ℝ)].length = [-Real.pi].length) ∧
    ([(5 : ℝ)].length = [-Real.pi].length) ∧
    account_for_periodicity [1] [-Real.pi] [5] =
      ([1] ++ (([(1 : ℝ)].zip [-Real.pi]).filter
            (fun q => isclose q.2 (-Real.pi))).map Prod.fst
         ++ (([(1 : ℝ)].zip [-Real.pi]).filter
            (fun q => isclose q.2 Real.pi)).map Prod.fst,
       [-Real.pi] ++ ([-Real.pi].filter
            (fun v => isclose v (-Real.pi))).map (fun v => v + 2 * Real.pi)
         ++ ([-Real.pi].filter (fun v => isclose v Real.pi)).map
            (fun v => v - 2 * Real.pi),
       [5] ++ (([(5 : ℝ)].zip [-Real.pi]).filter
            (fun q => isclose q.2 (-Real.pi))).map Prod.fst
         ++ (([(5 : ℝ)].zip [-Real.pi]).filter
            (fun q => isclose q.2 Real.pi)).map Prod.fst) :=
  ⟨rfl, rfl, c1_account_for_periodicity_stitches_at_pi [1] [-Real.pi] [5] rfl rfl⟩

/-- C1 counterexample: the claim as stated — `account_for_periodicity`
realises the period-parameterised stitching contract on
(longitude, latitude, payload) arrays — fails at the concrete degree-valued
input `lon = [-180]`, `lat = [0]`, `payload = [0]` with `period = 360`:
the spec contract duplicates the `-180` sample at `+180`, while the code,
whose seam is hard-coded at `±π` and keyed on its second argument, returns
the input unchanged. -/
theorem c1_counterexample :
    account_for_periodicity [(-180 : ℝ)] [0] [0] ≠ stitch 360 [(-180 : ℝ)] [0] [0] := by
  have h1 : account_for_periodicity [(-180 : ℝ)] [0] [0] = ([-180], [0], [0]) := by
    simp [account_for_periodicity, nonzero_cons, nonzero_nil,
      isclose_zero_neg_pi, isclose_zero_pi, select]
  have h2 : stitch 360 [(-180 : ℝ)] [0] [0] = ([-180, 180], [0, 0], [0, 0]) := by
    simp only [stitch, List.map_cons, List.map_nil, isclose_neg180_neg_half360,
      isclose_neg180_half360, nonzero_cons, nonzero_nil, if_true,
      Bool.false_eq_true, if_false, List.map_nil]
    norm_num [select]
  rw [h1, h2]
  intro hcontra
  have := congrArg (fun t => t.1.length) hcontra
  simp at this

/-! ### Claim C2 -/

/-- C2: the degree-valued call site does *not* get a `±180` seam check.
`account_for_periodicity` hard-codes the `±π` seam on its second argument
and takes exactly three arrays (the cartopy call site passes five, a
`TypeError` at runtime).  Evaluating the embedded function on degree-valued
data containing a sample at longitude `-180` — whether that longitude array
is passed first (as the cartopy call site does) or second (where the
function actually looks) — the sample is never duplicated, contradicting
the claimed period-360 behaviour. -/
theorem c2_degree_call_site_not_stitched :
    account_for_periodicity [(-180 : ℝ)] [0] [7] = ([-180], [0], [7]) ∧
    account_for_periodicity [0] [(-180 : ℝ)] [7] = ([0], [-180], [7]) := by
  constructor
  · simp [account_for_periodicity, nonzero_cons, nonzero_nil,
      isclose_zero_neg_pi, isclose_zero_pi, select]
  · simp [account_for_periodicity, nonzero_cons, nonzero_nil,
      isclose_neg180_neg_pi, isclose_neg180_pi, select]

/-! ### Helper lemmas on `norm3` -/

theorem norm3_nonneg (x y z : ℝ) : 0 ≤ norm3 x y z := Real.sqrt_nonneg _

theorem abs_norm3 (x y z : ℝ) : |norm3 x y z| = norm3 x y z :=
  abs_of_nonneg (norm3_nonneg x y z)

theorem sq_norm3 (x y z : ℝ) : norm3 x y z ^ 2 = x ^ 2 + y ^ 2 + z ^ 2 :=
  Real.sq_sqrt (by positivity)

theorem norm3_eq_zero_iff (x y z : ℝ) :
    norm3 x y z = 0 ↔ x = 0 ∧ y = 0 ∧ z = 0 := by
  unfold norm3
  rw [Real.sqrt_eq_zero (by positivity)]
  constructor
  · intro h
    refine ⟨?_, ?_, ?_⟩ <;> nlinarith [sq_nonneg x, sq_nonneg y, sq_nonneg z]
  · rintro ⟨rfl, rfl, rfl⟩
    norm_num

theorem norm3_one_zero_zero : norm3 1 0 0 = 1 := by
  unfold norm3
  rw [show ((1 : ℝ) ^ 2 + 0 ^ 2 + 0 ^ 2) = 1 by norm_num, Real.sqrt_one]

theorem norm3_zero_zero_one : norm3 0 0 1 = 1 := by
  unfold norm3
  rw [show ((0 : ℝ) ^ 2 + 0 ^ 2 + 1 ^ 2) = 1 by norm_num, Real.sqrt_one]

theorem norm3_zero : norm3 0 0 0 = 0 := by
  unfold norm3
  rw [show ((0 : ℝ) ^ 2 + 0 ^ 2 + 0 ^ 2) = 0 by norm_num, Real.sqrt_zero]

theorem norm3_boundary_input : norm3 1.0000001 0 0 = 1.0000001 := by
  unfold norm3
  rw [show ((1.0000001 : ℝ) ^ 2 + 0 ^ 2 + 0 ^ 2) = 1.0000001 ^ 2 by norm_num,
    Real.sqrt_sq (by norm_num)]

/-! ### Claim C5 -/

/-- C5: `cartesian2density` fails (returns `none`, modelling the raised
`AssertionError`) exactly when the Euclidean norm of `(x, y, z)` is
`≥ 1 + 1e-10`, and otherwise returns
`(I + x*σx + y*σy + z*σz) / 2 = bloch_vector_to_density_matrix x y z`;
in particular it fails at `(1.0000001, 0, 0)` and succeeds at `(1, 0, 0)`. -/
theorem c5_cartesian2density_boundary :
    (∀ x y z : ℝ, cartesian2density x y z = none ↔ 1 + 1e-10 ≤ norm3 x y z) ∧
    (∀ x y z : ℝ, norm3 x y z < 1 + 1e-10 →
      cartesian2density x y z = some (bloch_vector_to_density_matrix x y z)) ∧
    cartesian2density 1.0000001 0 0 = none ∧
    cartesian2density 1 0 0 = some (bloch_vector_to_density_matrix 1 0 0) := by
  refine ⟨fun x y z => ?_, fun x y z h => ?_, ?_, ?_⟩
  · by_cases h : norm3 x y z < 1 + 1e-10 <;>
      simp [cartesian2density, abs_norm3, h, not_le, le_of_not_lt]
  · simp [cartesian2density, abs_norm3, h]
  · simp only [cartesian2density]
    rw [norm3_boundary_input, abs_of_nonneg (by norm_num : (0 : ℝ) ≤ 1.0000001),
      if_neg (by norm_num)]
  · simp only [cartesian2density]
    rw [norm3_one_zero_zero, abs_of_nonneg zero_le_one, if_pos (by norm_num)]

/-- C5 witness: the success branch applied at the concrete input `(0, 0, 0)`. -/
theorem c5_witness :
    norm3 0 0 0 < 1 + 1e-10 ∧
    cartesian2density 0 0 0 = some (bloch_vector_to_density_matrix 0 0 0) :=
  have hn : norm3 0 0 0 < 1 + 1e-10 := by rw [norm3_zero]; norm_num
  ⟨hn, c5_cartesian2density_boundary.2.1 0 0 0 hn⟩

/-! ### Claim C6 -/

/-- C6 (amended): for every 2x2 complex matrix `ρ`, with no validation,
`density2bloch` returns `x = Re (ρ₀₁ + ρ₁₀)`, `y = Im (ρ₁₀ − ρ₀₁)`
(the *negation* of the claimed `Im (ρ₀₁ − ρ₁₀)`), and
`z = Re (ρ₀₀ − ρ₁₁)`. -/
theorem c6_density2bloch_components (ρ : Matrix (Fin 2) (Fin 2) ℂ) :
    density2bloch ρ = ((ρ 0 1 + ρ 1 0).re, (ρ 1 0 - ρ 0 1).im, (ρ 0 0 - ρ 1 1).re) := by
  unfold density2bloch
  rw [add_comm (ρ 1 0) (ρ 0 1)]

/-- C6 counterexample: at the concrete matrix `[[0, i], [0, 0]]` the
`y`-component returned by the code is `-1`, while the claimed formula
`Im (ρ₀₁ − ρ₁₀)` gives `+1`. -/
theorem c6_counterexample :
    ¬ ((density2bloch !![0, Complex.I; 0, 0]).2.1 =
        ((!![0, Complex.I; 0, 0] : Matrix (Fin 2) (Fin 2) ℂ) 0 1 -
         (!![0, Complex.I; 0, 0] : Matrix (Fin 2) (Fin 2) ℂ) 1 0).im) := by
  unfold density2bloch
  norm_num [Complex.sub_im, Complex.I_im]

/-! ### Claim C7 -/

/-- C7: `spherical2geographic` maps, elementwise, `theta` to
`lat = 90 - theta*180/π` and `phi` to `lon = phi*180/π`, wrapped by
subtracting `360` from exactly those values strictly greater than `180`;
for `theta = π/2`, `phi = 3.2` the longitude equals `3.2*180/π - 360` and
lies in `(-180, 180]`. -/
theorem c7_spherical2geographic_spec :
    (∀ theta phi : List ℝ,
      spherical2geographic theta phi =
        (theta.map (fun t => 90 - t * 180 / Real.pi),
         phi.map (fun p =>
           if p * 180 / Real.pi > 180 then p * 180 / Real.pi - 360
           else p * 180 / Real.pi))) ∧
    spherical2geographic [Real.pi / 2] [3.2] = ([0], [3.2 * 180 / Real.pi - 360]) ∧
    -180 < 3.2 * 180 / Real.pi - 360 ∧ 3.2 * 180 / Real.pi - 360 ≤ 180 := by
  have h1 : ∀ t : ℝ, t * 360 / (2 * Real.pi) = t * 180 / Real.pi := by
    intro t
    rw [div_eq_div_iff (by positivity) Real.pi_ne_zero]
    ring
  refine ⟨fun theta phi => ?_, ?_, ?_, ?_⟩
  · simp only [spherical2geographic, List.map_map, Function.comp_def, h1]
  · simp only [spherical2geographic, List.map_cons, List.map_nil, h1]
    have hlat : (90 : ℝ) - Real.pi / 2 * 180 / Real.pi = 0 := by
      field_simp
      ring
    have hgt : (3.2 : ℝ) * 180 / Real.pi > 180 := by
      rw [gt_iff_lt, lt_div_iff Real.pi_pos]
      nlinarith [Real.pi_lt_d2]
    rw [hlat, if_pos hgt]
  · have : (180 : ℝ) < 3.2 * 180 / Real.pi := by
      rw [lt_div_iff Real.pi_pos]
      nlinarith [Real.pi_lt_d2]
    linarith
  · have : (3.2 : ℝ) * 180 / Real.pi ≤ 360 := by
      rw [div_le_iff Real.pi_pos]
      nlinarith [Real.pi_gt_three]
    linarith

/-! ### Claim C9 -/

/-- C9: `cartesian2spherical` computes `theta` as the unguarded
`arccos (z / r)` with `r` the Euclidean norm: away from the origin the
divisor is strictly positive (the division is well defined), while at the
exact origin the divisor is `0` — over floats `0/0` is NaN, the undefined
inclination the claim describes; there is no validation or clamping. -/
theorem c9_cartesian2spherical_origin_unguarded :
    (∀ x y z : ℝ, ¬(x = 0 ∧ y = 0 ∧ z = 0) → 0 < norm3 x y z) ∧
    norm3 0 0 0 = 0 ∧
    (∀ x y z : ℝ,
      (cartesian2spherical x y z).2.1 = Real.arccos (z / norm3 x y z)) := by
  refine ⟨fun x y z h => ?_, norm3_zero, fun x y z => rfl⟩
  rcases lt_or_eq_of_le (norm3_nonneg x y z) with hlt | heq
  · exact hlt
  · exact absurd ((norm3_eq_zero_iff x y z).mp heq.symm) h

/-- C9 witness: the positivity of the divisor applied at `(1, 0, 0)`. -/
theorem c9_witness :
    ¬((1 : ℝ) = 0 ∧ (0 : ℝ) = 0 ∧ (0 : ℝ) = 0) ∧ 0 < norm3 1 0 0 :=
  have h : ¬((1 : ℝ) = 0 ∧ (0 : ℝ) = 0 ∧ (0 : ℝ) = 0) := by norm_num
  ⟨h, c9_cartesian2spherical_origin_unguarded.1 1 0 0 h⟩

/-! ### Helper lemmas on the density-matrix side -/

open scoped ComplexOrder

theorem bvdm_entries (x y z : ℝ) :
    bloch_vector_to_density_matrix x y z =
      !![(1 + (z : ℂ)) / 2, ((x : ℂ) - (y : ℂ) * Complex.I) / 2;
         ((x : ℂ) + (y : ℂ) * Complex.I) / 2, (1 - (z : ℂ)) / 2] := by
  unfold bloch_vector_to_density_matrix pauliI pauliX pauliY pauliZ
  ext i j
  fin_cases i <;> fin_cases j <;>
    simp [Matrix.add_apply, Matrix.smul_apply, Matrix.one_apply] <;> ring

theorem bvdm_isHermitian (x y z : ℝ) :
    (bloch_vector_to_density_matrix x y z).IsHermitian := by
  rw [bvdm_entries]
  unfold Matrix.IsHermitian
  ext i j
  fin_cases i <;> fin_cases j <;>
    simp [Matrix.conjTranspose_apply, map_add, map_sub, map_mul, map_div₀,
      Complex.conj_ofReal, Complex.conj_I, map_one] <;> ring

theorem bvdm_trace (x y z : ℝ) :
    (bloch_vector_to_density_matrix x y z).trace = 1 := by
  rw [bvdm_entries, Matrix.trace_fin_two]
  simp
  ring

theorem quad_core (x y z P Q A B : ℝ) (hn : x ^ 2 + y ^ 2 + z ^ 2 ≤ 1)
    (hLag : P ^ 2 + Q ^ 2 = A * B) (hA0 : 0 ≤ A) (hB0 : 0 ≤ B) :
    0 ≤ (A + B) / 2 + (z * ((A - B) / 2) + x * P + y * Q) := by
  have hCS : (z * ((A - B) / 2) + x * P + y * Q) ^ 2
      ≤ (x ^ 2 + y ^ 2 + z ^ 2) * (((A - B) / 2) ^ 2 + P ^ 2 + Q ^ 2) := by
    nlinarith [sq_nonneg (x * ((A - B) / 2) - z * P),
      sq_nonneg (y * ((A - B) / 2) - z * Q), sq_nonneg (x * Q - y * P)]
  have hF : (0 : ℝ) ≤ ((A - B) / 2) ^ 2 + P ^ 2 + Q ^ 2 := by positivity
  have hmul : (x ^ 2 + y ^ 2 + z ^ 2) * (((A - B) / 2) ^ 2 + P ^ 2 + Q ^ 2)
      ≤ ((A - B) / 2) ^ 2 + P ^ 2 + Q ^ 2 := by
    nlinarith [mul_nonneg (sub_nonneg.mpr hn) hF]
  have hride : ((A - B) / 2) ^ 2 + A * B = ((A + B) / 2) ^ 2 := by ring
  have ht2 : (z * ((A - B) / 2) + x * P + y * Q) ^ 2 ≤ ((A + B) / 2) ^ 2 := by
    have h1 := hCS.trans hmul
    linarith [h1, hLag, hride]
  nlinarith [ht2, hA0, hB0]

theorem bloch_quadratic_nonneg (x y z p0 q0 p1 q1 : ℝ)
    (hn : x ^ 2 + y ^ 2 + z ^ 2 ≤ 1) :
    0 ≤ (1 + z) / 2 * (p0 ^ 2 + q0 ^ 2) + (1 - z) / 2 * (p1 ^ 2 + q1 ^ 2)
        + x * (p0 * p1 + q0 * q1) + y * (p0 * q1 - q0 * p1) := by
  have h := quad_core x y z (p0 * p1 + q0 * q1) (p0 * q1 - q0 * p1)
    (p0 ^ 2 + q0 ^ 2) (p1 ^ 2 + q1 ^ 2) hn (by ring) (by positivity) (by positivity)
  linarith [h]

theorem bvdm_posSemidef (x y z : ℝ) (hn2 : x ^ 2 + y ^ 2 + z ^ 2 ≤ 1) :
    (bloch_vector_to_density_matrix x y z).PosSemidef := by
  refine ⟨bvdm_isHermitian x y z, fun v => ?_⟩
  rw [bvdm_entries]
  have hdot : Matrix.dotProduct (star v)
      (Matrix.mulVec (!![(1 + (z : ℂ)) / 2, ((x : ℂ) - (y : ℂ) * Complex.I) / 2;
           ((x : ℂ) + (y : ℂ) * Complex.I) / 2, (1 - (z : ℂ)) / 2]) v)
      = star (v 0) * ((1 + (z : ℂ)) / 2 * v 0 + ((x : ℂ) - (y : ℂ) * Complex.I) / 2 * v 1)
        + star (v 1) * (((x : ℂ) + (y : ℂ) * Complex.I) / 2 * v 0
            + (1 - (z : ℂ)) / 2 * v 1) := by
    simp [Matrix.dotProduct, Matrix.mulVec, Fin.sum_univ_two]
  rw [hdot]
  refine Complex.nonneg_iff.mpr ⟨?_, ?_⟩
  · simp only [Complex.add_re, Complex.add_im, Complex.mul_re, Complex.mul_im,
      Complex.sub_re, Complex.sub_im, Complex.div_re, Complex.div_im,
      Complex.conj_re, Complex.conj_im, Complex.I_re, Complex.I_im,
      Complex.ofReal_re, Complex.ofReal_im, Complex.one_re, Complex.one_im,
      Complex.normSq_apply, Complex.re_ofNat, Complex.im_ofNat, RCLike.star_def]
    have h := bloch_quadratic_nonneg x y z (v 0).re (v 0).im (v 1).re (v 1).im hn2
    nlinarith [h]
  · simp only [Complex.add_re, Complex.add_im, Complex.mul_re, Complex.mul_im,
      Complex.sub_re, Complex.sub_im, Complex.div_re, Complex.div_im,
      Complex.conj_re, Complex.conj_im, Complex.I_re, Complex.I_im,
      Complex.ofReal_re, Complex.ofReal_im, Complex.one_re, Complex.one_im,
      Complex.normSq_apply, Complex.re_ofNat, Complex.im_ofNat, RCLike.star_def]
    ring

theorem hermitian_offdiag {ρ : Matrix (Fin 2) (Fin 2) ℂ} (h : ρ.IsHermitian) :
    ρ 1 0 = star (ρ 0 1) := by
  have h1 := h.apply 0 1
  have h2 := congrArg star h1
  rwa [star_star] at h2

theorem hermitian_diag_im {ρ : Matrix (Fin 2) (Fin 2) ℂ} (h : ρ.IsHermitian)
    (i : Fin 2) : (ρ i i).im = 0 := by
  have h1 := h.apply i i
  have h2 := congrArg Complex.im h1
  simp only [Complex.star_def, Complex.conj_im] at h2
  linarith

theorem psd_diag_re_nonneg {ρ : Matrix (Fin 2) (Fin 2) ℂ} (h : ρ.PosSemidef) :
    0 ≤ (ρ 0 0).re ∧ 0 ≤ (ρ 1 1).re := by
  constructor
  · have hv := h.2 ![1, 0]
    have hre := (Complex.nonneg_iff.mp hv).1
    simpa [Matrix.dotProduct, Matrix.mulVec, Fin.sum_univ_two] using hre
  · have hv := h.2 ![0, 1]
    have hre := (Complex.nonneg_iff.mp hv).1
    simpa [Matrix.dotProduct, Matrix.mulVec, Fin.sum_univ_two] using hre

theorem psd2_entry_bound {ρ : Matrix (Fin 2) (Fin 2) ℂ} (h : ρ.PosSemidef) :
    Complex.normSq (ρ 0 1) ≤ (ρ 0 0).re * (ρ 1 1).re := by
  obtain ⟨ha0, hd0⟩ := psd_diag_re_nonneg h
  have hc := hermitian_offdiag h.1
  have ha_im := hermitian_diag_im h.1 0
  have hd_im := hermitian_diag_im h.1 1
  have key : ∀ t : ℝ, 0 ≤ (ρ 0 0).re * t ^ 2 * Complex.normSq (ρ 0 1)
      + 2 * t * Complex.normSq (ρ 0 1) + (ρ 1 1).re := by
    intro t
    have hv := h.2 ![(t : ℂ) * ρ 0 1, 1]
    have hre := (Complex.nonneg_iff.mp hv).1
    simp only [Matrix.dotProduct, Matrix.mulVec, Fin.sum_univ_two,
      Matrix.cons_val_zero, Matrix.cons_val_one, Matrix.head_cons, Pi.star_apply,
      hc, Complex.star_def, Complex.add_re, Complex.add_im, Complex.mul_re,
      Complex.mul_im, Complex.conj_re, Complex.conj_im, Complex.ofReal_re,
      Complex.ofReal_im, Complex.one_re, Complex.one_im, mul_one] at hre
    simp only [Complex.normSq_apply]
    nlinarith [hre, ha_im, hd_im]
  by_cases hb : ρ 0 1 = 0
  · simp only [hb, map_zero]
    positivity
  · have hβ : 0 < Complex.normSq (ρ 0 1) := by
      simpa [Complex.normSq_pos] using hb
    rcases eq_or_lt_of_le ha0 with ha | ha
    · exfalso
      have hk := key (-(((ρ 1 1).re + 1) / (2 * Complex.normSq (ρ 0 1))))
      rw [← ha] at hk
      have heq0 : (0 : ℝ) * (-(((ρ 1 1).re + 1) / (2 * Complex.normSq (ρ 0 1)))) ^ 2 *
            Complex.normSq (ρ 0 1)
          + 2 * (-(((ρ 1 1).re + 1) / (2 * Complex.normSq (ρ 0 1)))) *
            Complex.normSq (ρ 0 1) + (ρ 1 1).re = -1 := by
        field_simp
        ring
      rw [heq0] at hk
      linarith
    · have hk := key (-(1 / (ρ 0 0).re))
      have h1 : (ρ 0 0).re * (-(1 / (ρ 0 0).re)) ^ 2 = 1 / (ρ 0 0).re := by
        field_simp
        ring
      rw [h1] at hk
      have hmul := mul_le_mul_of_nonneg_left hk ha.le
      have heq : (ρ 0 0).re * (1 / (ρ 0 0).re * Complex.normSq (ρ 0 1)
            + 2 * -(1 / (ρ 0 0).re) * Complex.normSq (ρ 0 1) + (ρ 1 1).re)
          = (ρ 0 0).re * (ρ 1 1).re - Complex.normSq (ρ 0 1) := by
        field_simp
        ring
      rw [mul_zero, heq] at hmul
      linarith

/-! ### Claim C3 -/

/-- C3: for every Cartesian point with `0 < norm ≤ 1`, converting to
spherical coordinates and back is the identity (exactly, over the reals
that model the floats). -/
theorem c3_roundtrip_cartesian_spherical (x y z : ℝ)
    (h0 : 0 < norm3 x y z) (h1 : norm3 x y z ≤ 1) :
    spherical2cartesian (cartesian2spherical x y z).1
      (cartesian2spherical x y z).2.1 (cartesian2spherical x y z).2.2 = (x, y, z) := by
  have hr2 : norm3 x y z ^ 2 = x ^ 2 + y ^ 2 + z ^ 2 := sq_norm3 x y z
  simp only [spherical2cartesian, cartesian2spherical, arctan2, Prod.mk.injEq]
  set r := norm3 x y z with hr
  have hrne : r ≠ 0 := ne_of_gt h0
  have hz_le : z / r ≤ 1 := by
    rw [div_le_one h0]
    nlinarith [sq_nonneg x, sq_nonneg y]
  have hz_ge : (-1 : ℝ) ≤ z / r := by
    rw [le_div_iff h0]
    nlinarith [sq_nonneg x, sq_nonneg y]
  have hsin : Real.sin (Real.arccos (z / r)) = Real.sqrt (x ^ 2 + y ^ 2) / r := by
    rw [Real.sin_arccos]
    have he : 1 - (z / r) ^ 2 = (x ^ 2 + y ^ 2) / r ^ 2 := by
      field_simp
      nlinarith
    rw [he, Real.sqrt_div (by positivity) _, Real.sqrt_sq h0.le]
  have habs : Complex.abs ⟨x, y⟩ = Real.sqrt (x ^ 2 + y ^ 2) := by
    rw [Complex.abs_apply, Complex.normSq_mk]
    congr 1
    ring
  refine ⟨?_, ?_, ?_⟩
  · rw [hsin]
    by_cases hxy : (⟨x, y⟩ : ℂ) = 0
    · have hx0 : x = 0 := by simpa using congrArg Complex.re hxy
      have hy0 : y = 0 := by simpa using congrArg Complex.im hxy
      rw [hx0, hy0]
      norm_num
    · have hs : Real.sqrt (x ^ 2 + y ^ 2) ≠ 0 := by
        rw [← habs]
        exact Complex.abs.ne_zero hxy
      rw [Complex.cos_arg hxy, habs]
      show r * (x / Real.sqrt (x ^ 2 + y ^ 2)) * (Real.sqrt (x ^ 2 + y ^ 2) / r) = x
      field_simp
  · rw [hsin]
    by_cases hxy : (⟨x, y⟩ : ℂ) = 0
    · have hx0 : x = 0 := by simpa using congrArg Complex.re hxy
      have hy0 : y = 0 := by simpa using congrArg Complex.im hxy
      rw [hx0, hy0]
      norm_num
    · have hs : Real.sqrt (x ^ 2 + y ^ 2) ≠ 0 := by
        rw [← habs]
        exact Complex.abs.ne_zero hxy
      rw [Complex.sin_arg, habs]
      show r * (y / Real.sqrt (x ^ 2 + y ^ 2)) * (Real.sqrt (x ^ 2 + y ^ 2) / r) = y
      field_simp
  · rw [Real.cos_arccos hz_ge hz_le, mul_comm, div_mul_cancel₀ z hrne]

/-- C3 witness: the round trip applied at the concrete point `(0, 0, 1)`. -/
theorem c3_witness :
    0 < norm3 0 0 1 ∧ norm3 0 0 1 ≤ 1 ∧
    spherical2cartesian (cartesian2spherical 0 0 1).1
      (cartesian2spherical 0 0 1).2.1 (cartesian2spherical 0 0 1).2.2 =
      ((0 : ℝ), (0 : ℝ), (1 : ℝ)) :=
  have hp : 0 < norm3 0 0 1 := by rw [norm3_zero_zero_one]; norm_num
  have hle : norm3 0 0 1 ≤ 1 := by rw [norm3_zero_zero_one]
  ⟨hp, hle, c3_roundtrip_cartesian_spherical 0 0 1 hp hle⟩

/-! ### Claim C4 -/

/-- C4: for every valid one-qubit density matrix (2x2 complex, positive
semi-definite — which includes Hermitian — with trace 1), the Bloch vector
extracted by `density2bloch` satisfies the norm precondition of
`cartesian2density` (so the assert passes), and converting back returns the
original matrix. -/
theorem c4_roundtrip_density_cartesian (ρ : Matrix (Fin 2) (Fin 2) ℂ)
    (hpsd : ρ.PosSemidef) (htr : ρ.trace = 1) :
    norm3 (density2bloch ρ).1 (density2bloch ρ).2.1 (density2bloch ρ).2.2 < 1 + 1e-10 ∧
    cartesian2density (density2bloch ρ).1 (density2bloch ρ).2.1 (density2bloch ρ).2.2
      = some ρ := by
  have hdet := psd2_entry_bound hpsd
  have hc := hermitian_offdiag hpsd.1
  have ha_im := hermitian_diag_im hpsd.1 0
  have hd_im := hermitian_diag_im hpsd.1 1
  rw [Matrix.trace_fin_two] at htr
  have htr_re : (ρ 0 0).re + (ρ 1 1).re = 1 := by
    have h1 := congrArg Complex.re htr
    simpa [Complex.add_re] using h1
  have hx : (density2bloch ρ).1 = 2 * (ρ 0 1).re := by
    simp only [density2bloch, hc, Complex.add_re, Complex.star_def, Complex.conj_re]
    ring
  have hy : (density2bloch ρ).2.1 = -2 * (ρ 0 1).im := by
    simp only [density2bloch, hc, Complex.sub_im, Complex.star_def, Complex.conj_im]
    ring
  have hz : (density2bloch ρ).2.2 = (ρ 0 0).re - (ρ 1 1).re := by
    simp only [density2bloch, Complex.sub_re]
  have hnsq : Complex.normSq (ρ 0 1) = (ρ 0 1).re ^ 2 + (ρ 0 1).im ^ 2 := by
    rw [Complex.normSq_apply]
    ring
  have hsq : (density2bloch ρ).1 ^ 2 + (density2bloch ρ).2.1 ^ 2
      + (density2bloch ρ).2.2 ^ 2 ≤ 1 := by
    rw [hx, hy, hz]
    nlinarith [hdet, htr_re, hnsq]
  have hle : norm3 (density2bloch ρ).1 (density2bloch ρ).2.1 (density2bloch ρ).2.2
      ≤ 1 := by
    unfold norm3
    calc Real.sqrt ((density2bloch ρ).1 ^ 2 + (density2bloch ρ).2.1 ^ 2
          + (density2bloch ρ).2.2 ^ 2) ≤ Real.sqrt 1 := Real.sqrt_le_sqrt hsq
    _ = 1 := Real.sqrt_one
  have hlt : norm3 (density2bloch ρ).1 (density2bloch ρ).2.1 (density2bloch ρ).2.2
      < 1 + 1e-10 := by
    have : (0 : ℝ) < 1e-10 := by norm_num
    linarith
  refine ⟨hlt, ?_⟩
  simp only [cartesian2density, abs_norm3]
  rw [if_pos hlt]
  congr 1
  rw [bvdm_entries, hx, hy, hz]
  conv_rhs => rw [Matrix.eta_fin_two ρ]
  ext i j
  fin_cases i <;> fin_cases j <;>
    simp only [Matrix.cons_val_zero, Matrix.cons_val_one, Matrix.head_cons,
      Matrix.head_fin_const, Matrix.cons_val_fin_one, Matrix.of_apply,
      Matrix.cons_val', Matrix.empty_val'] <;>
    apply Complex.ext <;>
    simp only [Complex.add_re, Complex.add_im, Complex.sub_re, Complex.sub_im,
      Complex.mul_re, Complex.mul_im, Complex.div_re, Complex.div_im,
      Complex.I_re, Complex.I_im, Complex.ofReal_re, Complex.ofReal_im,
      Complex.one_re, Complex.one_im, Complex.normSq_apply,
      Complex.re_ofNat, Complex.im_ofNat, hc, Complex.star_def,
      Complex.conj_re, Complex.conj_im] <;>
    norm_num <;> linarith [htr_re, ha_im, hd_im]

/-- C4 witness: the round trip applied at the concrete density matrix
`[[1, 0], [0, 0]]` (the pure state `|0><0|`). -/
theorem c4_witness :
    (!![1, 0; 0, 0] : Matrix (Fin 2) (Fin 2) ℂ).PosSemidef ∧
    (!![1, 0; 0, 0] : Matrix (Fin 2) (Fin 2) ℂ).trace = 1 ∧
    (norm3 (density2bloch !![1, 0; 0, 0]).1 (density2bloch !![1, 0; 0, 0]).2.1
        (density2bloch !![1, 0; 0, 0]).2.2 < 1 + 1e-10 ∧
     cartesian2density (density2bloch !![1, 0; 0, 0]).1
        (density2bloch !![1, 0; 0, 0]).2.1 (density2bloch !![1, 0; 0, 0]).2.2
        = some !![1, 0; 0, 0]) :=
  have hpsd : (!![1, 0; 0, 0] : Matrix (Fin 2) (Fin 2) ℂ).PosSemidef := by
    constructor
    · unfold Matrix.IsHermitian
      ext i j
      fin_cases i <;> fin_cases j <;> simp [Matrix.conjTranspose_apply]
    · intro v
      have hdot : Matrix.dotProduct (star v)
          (Matrix.mulVec (!![1, 0; 0, 0] : Matrix (Fin 2) (Fin 2) ℂ) v)
          = star (v 0) * v 0 := by
        simp [Matrix.dotProduct, Matrix.mulVec, Fin.sum_univ_two]
      rw [hdot, Complex.star_def, mul_comm, Complex.mul_conj]
      exact Complex.zero_le_real.mpr (Complex.normSq_nonneg _)
  have htr : (!![1, 0; 0, 0] : Matrix (Fin 2) (Fin 2) ℂ).trace = 1 := by
    rw [Matrix.trace_fin_two]
    simp
  ⟨hpsd, htr, c4_roundtrip_density_cartesian !![1, 0; 0, 0] hpsd htr⟩

/-! ### Claim C10 -/

/-- C10: on every input accepted by `cartesian2density` (norm `< 1 + 1e-10`)
the produced matrix is Hermitian with trace exactly 1 and equals
`[[(1+z)/2, (x-iy)/2], [(x+iy)/2, (1-z)/2]]`; when additionally the norm is
at most 1 it is positive semi-definite, i.e. a valid density matrix. -/
theorem c10_bloch_density_invariant (x y z : ℝ) (h : norm3 x y z < 1 + 1e-10) :
    (bloch_vector_to_density_matrix x y z).IsHermitian ∧
    (bloch_vector_to_density_matrix x y z).trace = 1 ∧
    bloch_vector_to_density_matrix x y z =
      !![(1 + (z : ℂ)) / 2, ((x : ℂ) - (y : ℂ) * Complex.I) / 2;
         ((x : ℂ) + (y : ℂ) * Complex.I) / 2, (1 - (z : ℂ)) / 2] ∧
    (norm3 x y z ≤ 1 → (bloch_vector_to_density_matrix x y z).PosSemidef) := by
  refine ⟨bvdm_isHermitian x y z, bvdm_trace x y z, bvdm_entries x y z, fun hle => ?_⟩
  apply bvdm_posSemidef
  nlinarith [sq_norm3 x y z, norm3_nonneg x y z, hle]

/-- C10 witness: the invariant applied at the concrete input `(1, 0, 0)`
(a point with norm exactly 1, so the positive semi-definiteness clause
applies as well). -/
theorem c10_witness :
    norm3 1 0 0 < 1 + 1e-10 ∧
    ((bloch_vector_to_density_matrix 1 0 0).IsHermitian ∧
     (bloch_vector_to_density_matrix 1 0 0).trace = 1 ∧
     bloch_vector_to_density_matrix 1 0 0 =
       !![(1 + ((0 : ℝ) : ℂ)) / 2, (((1 : ℝ) : ℂ) - ((0 : ℝ) : ℂ) * Complex.I) / 2;
          (((1 : ℝ) : ℂ) + ((0 : ℝ) : ℂ) * Complex.I) / 2, (1 - ((0 : ℝ) : ℂ)) / 2] ∧
     (norm3 1 0 0 ≤ 1 → (bloch_vector_to_density_matrix 1 0 0).PosSemidef)) :=
  have h : norm3 1 0 0 < 1 + 1e-10 := by rw [norm3_one_zero_zero]; norm_num
  ⟨h, c10_bloch_density_invariant 1 0 0 h⟩

/-! ### Claim C8 -/

/-- C8: constructing a `QubitPlacement` succeeds exactly when the declared
qubit count equals the number of positions; in particular `qubit_number = 5`
with 4 positions fails at construction, and with 5 positions (the T-shaped
5-qubit layout) it succeeds. -/
theorem c8_qubit_placement_invariant :
    (∀ (n : ℕ) (ps : List (ℤ × ℤ)) (ts : List String),
        (mkQubitPlacement n ps ts).isSome ↔ n = ps.length) ∧
    mkQubitPlacement 5 [(0, 0), (1, 0), (2, 0), (1, 1)] [] = none ∧
    (mkQubitPlacement 5 [(0, 0), (1, 0), (2, 0), (1, 1), (1, 2)] []).isSome = true := by
  refine ⟨fun n ps ts => ?_, rfl, rfl⟩
  by_cases h : n = ps.length <;> simp [mkQubitPlacement, h]

end Sqmap
